import Mathlib

/-!
# Verification of the lift-tracker core logic

Shallow embedding of the session-rotation, rx-parsing, completion-tracking,
auto-fill and save/edit logic of `app.js` (src/unnamed/part_001), together
with theorems settling the specification claims.

Strings are modelled as `List Char` at the algorithmic level (a JS string is
a sequence of UTF-16 code units; all inputs of interest are plain
characters).  JS `\s` and `trim` whitespace is modelled by
`Char.isWhitespace` (space, tab, CR, LF), which covers every whitespace
character occurring in the catalogue and the claims.
-/

namespace LiftTracker

/-- Result record of `parseRx` (app.js lines 292-295). -/
structure ParsedRx where
  maxSets : Nat
  maxReps : Nat
deriving DecidableEq, Repr

/-- The four capture groups of the regex
`(\d+)(?:\s*-\s*(\d+))?\s*[×x]\s*(\d+)(?:\s*-\s*(\d+))?` :
`g2`/`g4` are `none` when the optional range groups did not participate. -/
structure RxMatch where
  g1 : Nat
  g2 : Option Nat
  g3 : Nat
  g4 : Option Nat
deriving DecidableEq, Repr

/-- Numeric value of a digit character. -/
def digitVal (c : Char) : Nat := c.toNat - 48

/-- Value denoted by a digit string (what `parseInt` returns on it). -/
def digitsVal (ds : List Char) : Nat :=
  ds.foldl (fun a c => 10 * a + digitVal c) 0

/-- Greedy `\d+` scanner: accumulator threading, stops at the first
non-digit.  Mirrors the maximal-munch behaviour of the regex engine
(no later regex element can consume a digit, so maximal is exact). -/
def digitsAux (acc : Nat) : List Char → Nat × List Char
  | [] => (acc, [])
  | c :: cs =>
    if c.isDigit then digitsAux (10 * acc + digitVal c) cs else (acc, c :: cs)

/-- Pattern `\d+`: at least one digit, greedy; returns the value and the rest. -/
def digitsP : List Char → Option (Nat × List Char)
  | [] => none
  | c :: cs => if c.isDigit then some (digitsAux (digitVal c) cs) else none

/-- Pattern `\s*`: greedy whitespace skip. -/
def skipWs (cs : List Char) : List Char := cs.dropWhile Char.isWhitespace

/-- Class `[×x]` under the `/i` flag. -/
def isX (c : Char) : Bool := c = 'x' || c = 'X' || c = '×'

/-- The optional range tail `\s*-\s*(\d+)`: returns the captured number and
the remainder, or `none` when the group does not match here. -/
def rangeTail (cs : List Char) : Option (Nat × List Char) :=
  match skipWs cs with
  | [] => none
  | c :: cs2 => if c = '-' then digitsP (skipWs cs2) else none

/-- Pattern `\s*(\d+)(?:\s*-\s*(\d+))?` — the reps side after the `x`. -/
def repsPart (cs : List Char) : Option (Nat × Option Nat) :=
  match digitsP (skipWs cs) with
  | none => none
  | some (c, rest) =>
    match rangeTail rest with
    | some (d, _) => some (c, some d)
    | none => some (c, none)

/-- Pattern `\s*[×x]` followed by the reps side. -/
def xPart (cs : List Char) : Option (Nat × Option Nat) :=
  match skipWs cs with
  | [] => none
  | c :: cs2 => if isX c then repsPart cs2 else none

/-- Attempt the whole regex at this position, with the one backtracking
point of the pattern: if the optional sets-range group matches but the rest
of the pattern then fails, the group is given back. -/
def matchAt (cs : List Char) : Option RxMatch :=
  match digitsP cs with
  | none => none
  | some (a, rest) =>
    match rangeTail rest with
    | some (b, rest2) =>
      match xPart rest2 with
      | some (c, d) => some ⟨a, some b, c, d⟩
      | none => (xPart rest).map (fun p => ⟨a, none, p.1, p.2⟩)
    | none => (xPart rest).map (fun p => ⟨a, none, p.1, p.2⟩)

/-- JS `String.prototype.match`: leftmost match — try each start position
left to right. -/
def findMatch : List Char → Option RxMatch
  | [] => none
  | c :: cs =>
    match matchAt (c :: cs) with
    | some m => some m
    | none => findMatch cs

/-- Last element `parts[parts.length - 1]` of `str.split(',')`: the suffix after the
last comma (the whole string when there is none). -/
def lastComma (cs : List Char) : List Char :=
  (cs.reverse.takeWhile (fun c => c ≠ ',')).reverse

/-- JS `String.prototype.trim` on a char list. -/
def trimChars (cs : List Char) : List Char :=
  ((cs.dropWhile Char.isWhitespace).reverse.dropWhile Char.isWhitespace).reverse

/-- Does `"/side"` (case-insensitively) occur at the head? -/
def sideAt : List Char → Bool
  | a :: b :: c :: d :: e :: _ =>
    a = '/' && b.toLower = 's' && c.toLower = 'i' && d.toLower = 'd' && e.toLower = 'e'
  | _ => false

/-- JS `str.replace(/\/side/i, '')`: remove the first case-insensitive
occurrence of `"/side"`. -/
def stripSide : List Char → List Char
  | [] => []
  | c :: cs => if sideAt (c :: cs) then cs.drop 4 else c :: stripSide cs

/-- Test `str.toLowerCase().startsWith('alt:')`. -/
def altPrefix (cs : List Char) : Bool :=
  (cs.take 4).map Char.toLower = ['a', 'l', 't', ':']

/-- The preprocessing of `parseRx` before the regex search: select the last
comma-separated scheme after an `alt:` marker, then strip `"/side"`. -/
def preprocRx (cs : List Char) : List Char :=
  stripSide (if altPrefix cs then trimChars (lastComma (cs.drop 4)) else cs)

/-- Char-level body of `parseRx` (app.js lines 279-295): preprocess, run the
regex, and combine `match[2] || match[1]` / `match[4] || match[3]`. -/
def parseRxChars (cs : List Char) : Option ParsedRx :=
  match findMatch (preprocRx cs) with
  | none => none
  | some m => some ⟨m.g2.getD m.g1, m.g4.getD m.g3⟩

/-- Function `parseRx` (app.js lines 277-296).  The argument is `none` for
`undefined`/`null`; `if (!rx) return null` also rejects the empty string. -/
def parseRx : Option String → Option ParsedRx
  | none => none
  | some s => if s = "" then none else parseRxChars s.toList

/-! ## Data model: dates, entries, sessions -/

/-- A local calendar date, as produced by `getFullYear`/`getMonth`/`getDate`
on a JS `Date` (month is 0-based; the numeric convention is irrelevant to
the logic, which only compares fields). -/
structure SimpleDate where
  year : Int
  month : Int
  day : Int
deriving DecidableEq, Repr

/-- An instant: its local calendar date plus the time of day in
milliseconds.  Instant order is lexicographic (calendar order on the date,
then time of day), which is order-isomorphic to epoch-millisecond order
within a single timezone.  `setHours(0,0,0,0)` maps `⟨d, t⟩` to `⟨d, 0⟩`. -/
structure DateTime where
  date : SimpleDate
  msec : Nat
deriving DecidableEq, Repr

/-- Calendar order on dates (year, then month, then day). -/
def dateLt (a b : SimpleDate) : Bool :=
  a.year < b.year ||
    (a.year = b.year && (a.month < b.month ||
      (a.month = b.month && a.day < b.day)))

/-- Instant order (used by the store's `where('date', '>=', bound)`). -/
def dtLe (a b : DateTime) : Bool :=
  dateLt a.date b.date || (a.date = b.date && a.msec ≤ b.msec)

/-- The `isToday` comparison of `determineCurrentSession` (app.js lines
97-100): field-by-field equality of the local calendar parts. -/
def sameDay (a b : SimpleDate) : Bool :=
  a.year = b.year && a.month = b.month && a.day = b.day

/-- One logged set group `{sets, reps, weight}`.  `sets`/`reps` come from
`parseInt` (an integer, possibly negative), `weight` from `parseFloat`
(modelled as an exact rational). -/
structure SetGroup where
  sets : Int
  reps : Int
  weight : Rat
deriving DecidableEq, Repr

/-- A Firestore entry document `{lift, date, sets, notes, session?}`.
`date` is `none` when the field is missing (not yet resolved server
timestamp); `session` is `none` when the field is absent and models the
JS-falsy check via `some ""` as well. -/
structure EntryDoc where
  lift : String
  date : Option DateTime
  sets : List SetGroup
  notes : String
  session : Option String
deriving DecidableEq, Repr

/-- One entry of a session's `lifts` array in the catalogue: either a fixed
`{liftId, rx}` slot or a `choose` group of alternatives. -/
structure ChoiceItem where
  liftId : String
  rx : String
deriving DecidableEq, Repr

inductive SessionItem where
  | fixed (liftId rx : String)
  | choose (choices : List ChoiceItem) (note : Option String)
deriving DecidableEq, Repr

/-- A catalogue session `{id, name, lifts}` (lifts.js `SESSIONS`). -/
structure Session where
  id : String
  name : String
  lifts : List SessionItem
deriving DecidableEq, Repr

/-! ## SessionRotator: `determineCurrentSession` (app.js lines 77-107) -/

/-- Function `determineCurrentSession`.  `fetched` is the outcome of the
most-recent-entry query (`orderBy('date','desc').limit(1)`): `Except.error`
when the lookup throws (caught, logged, default 0), `Except.ok none` when
the snapshot is empty, `Except.ok (some e)` with the most recent entry.
`now` is the current moment (`new Date()`), used both as the default for a
missing `date` field and as "today". -/
def determineCurrentSession (catalog : List Session) (now : DateTime)
    (fetched : Except Unit (Option EntryDoc)) : Nat :=
  match fetched with
  | .error _ => 0
  | .ok none => 0
  | .ok (some data) =>
    let lastDate := data.date.getD now
    match data.session with
    | none => 0
    | some sid =>
      if sid = "" then 0
      else
        match catalog.findIdx? (fun s => s.id = sid) with
        | none => 0
        | some lastIndex =>
          if sameDay lastDate.date now.date then lastIndex
          else (lastIndex + 1) % catalog.length

/-! ## CompletionTracker: `loadTodayEntries` (app.js lines 181-197) -/

/-- The store-side date-range filter `where('date', '>=', bound)`:
documents whose `date` field is present and at or after the bound
(documents missing the field never match a range filter). -/
def queryDateGe (entries : List EntryDoc) (bound : DateTime) : List EntryDoc :=
  entries.filter (fun e =>
    match e.date with
    | some d => dtLe bound d
    | none => false)

/-- Function `loadTodayEntries`: zero the clock to local midnight, query, and collect
the `lift` field of every matching document; a thrown query (flag `ok =
false`) yields the empty set.  The resulting list is read as a set (only
membership is ever used). -/
def loadTodayEntries (entries : List EntryDoc) (now : DateTime)
    (ok : Bool) : List String :=
  if ok then (queryDateGe entries ⟨now.date, 0⟩).map (fun e => e.lift)
  else []

/-! ## Save path (app.js lines 355-437) -/

/-- The parsed contents of one `.set-group-row` of the form:
`parseInt(…sets)`, `parseInt(…reps)`, `parseFloat(…weight)`, with `none`
for `NaN` (blank or unparseable field). -/
structure FormGroup where
  sets : Option Int
  reps : Option Int
  weight : Option Rat
deriving DecidableEq, Repr

/-- One row passes the check `!(!sets || !reps || isNaN(weight))`:
`sets` and `reps` parsed and nonzero (JS `!0 = !NaN = true`), `weight`
parsed (any numeric value). -/
def readGroup : FormGroup → Option SetGroup
  | ⟨some s, some r, some w⟩ =>
    if s ≠ 0 ∧ r ≠ 0 then some ⟨s, r, w⟩ else none
  | _ => none

/-- The validation loop: every row must pass and at least one row must
exist (`!valid || groups.length === 0` rejects). -/
def validateForm (rows : List FormGroup) : Option (List SetGroup) :=
  if rows.all (fun g => (readGroup g).isSome) ∧ rows ≠ [] then
    some (rows.filterMap readGroup)
  else none

/-- Observable outcome of one click on the save button. -/
inductive SaveOutcome where
  | noop
  | rejected
  | updateEntry (id : String) (groups : List SetGroup) (notes : String)
  | createEntry (e : EntryDoc)
deriving DecidableEq, Repr

/-- The save-button click handler (app.js lines 355-416) as a function of
the relevant state.  `noop` is the silent guard return
(`if (!currentUser || !currentLiftId) return`), `rejected` is the alert
path with no write, the other two constructors are the two write paths.
`serverDate` stands for the store-resolved `serverTimestamp()`. -/
def saveHandler (signedIn : Bool) (currentLiftId : Option String)
    (editingEntryId : Option String) (rows : List FormGroup)
    (notesVal : String) (useSession : Bool) (curSessionId : String)
    (serverDate : Option DateTime) : SaveOutcome :=
  if signedIn = false ∨ currentLiftId.getD "" = "" then .noop
  else
    match validateForm rows with
    | none => .rejected
    | some groups =>
      if editingEntryId.getD "" ≠ "" then
        .updateEntry (editingEntryId.getD "") groups
          (String.mk (trimChars notesVal.toList))
      else
        .createEntry
          { lift := currentLiftId.getD ""
            date := serverDate
            sets := groups
            notes := String.mk (trimChars notesVal.toList)
            session := if useSession then some curSessionId else none }

/-- The store-side effect of the update branch (app.js lines 383-385):
Firestore `update({sets: groups, notes})` replaces exactly the `sets` and
`notes` fields of the document with the given id and touches nothing
else.  The store is a list of `(documentId, document)` pairs. -/
def applyUpdate (store : List (String × EntryDoc)) (id : String)
    (groups : List SetGroup) (notes : String) : List (String × EntryDoc) :=
  store.map (fun p =>
    if p.1 = id then (p.1, { p.2 with sets := groups, notes := notes })
    else p)

/-! ## HistoryAutofillEngine: `loadHistory` (app.js lines 440-504) -/

/-- The weight auto-fill effect of `loadHistory` on the first form row.
`fetched` is the history query outcome (up to 5 entries, newest first);
an error or empty snapshot leaves the row untouched.  Otherwise
`lastWeight` is `sets[0].weight` of the first document with a non-empty
`sets` array, and it is written into the weight field only when that field
is blank (`!weightInput.value`).  The sets/reps fields are never touched. -/
def loadHistoryFill (fetched : Except Unit (List EntryDoc))
    (row : FormGroup) : FormGroup :=
  match fetched with
  | .error _ => row
  | .ok [] => row
  | .ok docs =>
    match docs.findSome? (fun d => d.sets.head?.map (fun g => g.weight)) with
    | none => row
    | some w =>
      match row.weight with
      | none => { row with weight := some w }
      | some _ => row

/-! ## Predicates used by the matcher lemmas -/

/-- The head of `cs` (if any) does not satisfy `p`. -/
def HeadNot (p : Char → Bool) (cs : List Char) : Prop :=
  ∀ c, cs.head? = some c → p c = false

/-! ## The scheme grammar `A[-B] x C[-D]` (spec section 4.1)

An optional range part is `none` or a triple `(wa, wb, d)` standing for
the characters `wa ++ "-" ++ wb ++ d` of `\s*-\s*(\d+)`. -/

/-- Characters contributed by an optional range part. -/
def rangeStr : Option (List Char × List Char × List Char) → List Char
  | none => []
  | some (wa, wb, d) => wa ++ '-' :: (wb ++ d)

/-- Well-formedness of an optional range part. -/
def RangeOk : Option (List Char × List Char × List Char) → Prop
  | none => True
  | some (wa, wb, d) =>
    (∀ c ∈ wa, c.isWhitespace = true) ∧ (∀ c ∈ wb, c.isWhitespace = true) ∧
      d ≠ [] ∧ ∀ c ∈ d, c.isDigit = true

/-- The number captured by an optional range part. -/
def rangeVal : Option (List Char × List Char × List Char) → Option Nat
  | none => none
  | some (_, _, d) => some (digitsVal d)

/-- Predicate: `mid` is exactly one instance of the scheme grammar
`\d+(\s*-\s*\d+)?\s*[×x]\s*\d+(\s*-\s*\d+)?` (spec: `A[-B] x C[-D]`,
`x` the letter x in either case or `×`, whitespace optional). -/
def IsScheme (mid : List Char) : Prop :=
  ∃ dA rB w1 xc w2 dC rD,
    mid = dA ++ (rangeStr rB ++ (w1 ++ xc :: (w2 ++ (dC ++ rangeStr rD)))) ∧
    dA ≠ [] ∧ (∀ c ∈ dA, c.isDigit = true) ∧ RangeOk rB ∧
    (∀ c ∈ w1, c.isWhitespace = true) ∧ isX xc = true ∧
    (∀ c ∈ w2, c.isWhitespace = true) ∧
    dC ≠ [] ∧ (∀ c ∈ dC, c.isDigit = true) ∧ RangeOk rD

/-- The string contains a scheme substring ("matches the grammar" for an
unanchored regex search). -/
def HasScheme (cs : List Char) : Prop :=
  ∃ pre mid post, cs = pre ++ (mid ++ post) ∧ IsScheme mid

/-! ## Sanity checks on the spec's concrete test vectors -/

example : parseRx (some "3 x 5") = some ⟨3, 5⟩ := by decide
example : parseRx (some "3x5") = some ⟨3, 5⟩ := by decide
example : parseRx (some "2-3 x 8-10") = some ⟨3, 10⟩ := by decide
example : parseRx (some "alt: 3x5, 4x5-6") = some ⟨4, 6⟩ := by decide
example : parseRx (some "2-3 x 10-15/side") = some ⟨3, 15⟩ := by decide
example : parseRx (some "") = none := by decide
example : parseRx none = none := by decide
example : parseRx (some "banana") = none := by decide

/-! ## Character-class lemmas -/

theorem char_digit_toNat {c : Char} (h : c.isDigit = true) :
    48 ≤ c.toNat ∧ c.toNat ≤ 57 := by
  simp only [Char.isDigit, Bool.and_eq_true, decide_eq_true_eq] at h
  exact ⟨UInt32.le_toNat_of_le (by decide) h.1, UInt32.toNat_le_of_le (by decide) h.2⟩

theorem digit_toLower {c : Char} (h : c.isDigit = true) : c.toLower = c := by
  have hn := char_digit_toNat h
  simp only [Char.toLower]
  rw [if_neg]
  omega

theorem ws_not_digit {c : Char} (h : c.isWhitespace = true) : c.isDigit = false := by
  simp only [Char.isWhitespace, Bool.or_eq_true, decide_eq_true_eq] at h
  rcases h with ((h | h) | h) | h <;> subst h <;> decide

theorem digit_not_ws {c : Char} (h : c.isDigit = true) : c.isWhitespace = false := by
  cases hw : c.isWhitespace with
  | false => rfl
  | true => rw [ws_not_digit hw] at h; exact absurd h (by simp)

theorem ws_ne_slash {c : Char} (h : c.isWhitespace = true) : c ≠ '/' := by
  simp only [Char.isWhitespace, Bool.or_eq_true, decide_eq_true_eq] at h
  rcases h with ((h | h) | h) | h <;> subst h <;> decide

theorem digit_ne_slash {c : Char} (h : c.isDigit = true) : c ≠ '/' := by
  intro he; subst he; exact absurd h (by decide)

theorem digit_ne_lower_a {c : Char} (h : c.isDigit = true) : c.toLower ≠ 'a' := by
  rw [digit_toLower h]
  intro he; subst he; exact absurd h (by decide)

theorem isX_cases {c : Char} (h : isX c = true) : c = 'x' ∨ c = 'X' ∨ c = '×' := by
  simp only [isX, Bool.or_eq_true, decide_eq_true_eq] at h
  rcases h with (h | h) | h
  · exact Or.inl h
  · exact Or.inr (Or.inl h)
  · exact Or.inr (Or.inr h)

theorem isX_not_ws {c : Char} (h : isX c = true) : c.isWhitespace = false := by
  rcases isX_cases h with h | h | h <;> subst h <;> decide

theorem isX_not_digit {c : Char} (h : isX c = true) : c.isDigit = false := by
  rcases isX_cases h with h | h | h <;> subst h <;> decide

theorem isX_ne_dash {c : Char} (h : isX c = true) : c ≠ '-' := by
  rcases isX_cases h with h | h | h <;> subst h <;> decide

theorem isX_ne_slash {c : Char} (h : isX c = true) : c ≠ '/' := by
  rcases isX_cases h with h | h | h <;> subst h <;> decide

/-! ## Scanner stepping lemmas -/

/-- The head of `cs` (if any) does not satisfy `p`. -/
theorem headNot_nil {p : Char → Bool} : HeadNot p [] := by
  intro c h; cases h

theorem headNot_cons {p : Char → Bool} {c : Char} {cs : List Char}
    (h : p c = false) : HeadNot p (c :: cs) := by
  intro d hd
  cases hd
  exact h

theorem digitsAux_append {ds : List Char} (rest : List Char) (acc : Nat)
    (hall : ∀ c ∈ ds, c.isDigit = true) (hrest : HeadNot Char.isDigit rest) :
    digitsAux acc (ds ++ rest) =
      (ds.foldl (fun a c => 10 * a + digitVal c) acc, rest) := by
  induction ds generalizing acc with
  | nil =>
    simp only [List.nil_append, List.foldl_nil]
    cases rest with
    | nil => rfl
    | cons c cs => simp [digitsAux, hrest c rfl]
  | cons d ds ih =>
    have hd : d.isDigit = true := hall d (by simp)
    simp only [List.cons_append, digitsAux, hd, if_pos, List.foldl_cons]
    exact ih _ (fun c hc => hall c (by simp [hc]))

theorem digitsP_append {ds : List Char} (rest : List Char)
    (hne : ds ≠ []) (hall : ∀ c ∈ ds, c.isDigit = true)
    (hrest : HeadNot Char.isDigit rest) :
    digitsP (ds ++ rest) = some (digitsVal ds, rest) := by
  cases ds with
  | nil => exact absurd rfl hne
  | cons d ds =>
    have hd : d.isDigit = true := hall d (by simp)
    simp only [List.cons_append, digitsP, hd, if_pos]
    rw [digitsAux_append rest _ (fun c hc => hall c (by simp [hc])) hrest]
    simp [digitsVal]

theorem skipWs_append {ws : List Char} (rest : List Char)
    (hws : ∀ c ∈ ws, c.isWhitespace = true) :
    skipWs (ws ++ rest) = skipWs rest := by
  induction ws with
  | nil => simp
  | cons w ws ih =>
    simp only [List.cons_append, skipWs, List.dropWhile_cons,
      hws w (by simp), if_pos]
    exact ih (fun c hc => hws c (by simp [hc]))

theorem skipWs_no {cs : List Char} (h : HeadNot Char.isWhitespace cs) :
    skipWs cs = cs := by
  cases cs with
  | nil => rfl
  | cons c cs => simp [skipWs, List.dropWhile_cons, h c rfl]

theorem headNot_wsThen {p : Char → Bool}
    (hp : ∀ c, c.isWhitespace = true → p c = false)
    {ws rest : List Char} (hws : ∀ c ∈ ws, c.isWhitespace = true)
    (hrest : HeadNot p rest) : HeadNot p (ws ++ rest) := by
  cases ws with
  | nil => simpa using hrest
  | cons w ws =>
    simp only [List.cons_append]
    exact headNot_cons (hp w (hws w (by simp)))

theorem headNot_digit_range (rB : Option (List Char × List Char × List Char))
    (hrB : RangeOk rB) (rest : List Char)
    (hrest : HeadNot Char.isDigit rest) :
    HeadNot Char.isDigit (rangeStr rB ++ rest) := by
  rcases rB with _ | ⟨wa, wb, d⟩
  · simpa [rangeStr] using hrest
  · obtain ⟨hwa, -, -, -⟩ := hrB
    simp only [rangeStr, List.append_assoc, List.cons_append]
    exact headNot_wsThen (fun c h => ws_not_digit h) hwa (headNot_cons (by decide))

theorem rangeTail_exact (wa wb d post : List Char)
    (hwa : ∀ c ∈ wa, c.isWhitespace = true)
    (hwb : ∀ c ∈ wb, c.isWhitespace = true)
    (hd : d ≠ []) (hdall : ∀ c ∈ d, c.isDigit = true)
    (hpostD : HeadNot Char.isDigit post) :
    rangeTail (wa ++ ('-' :: (wb ++ (d ++ post)))) =
      some (digitsVal d, post) := by
  have h1 : skipWs (wa ++ ('-' :: (wb ++ (d ++ post)))) =
      '-' :: (wb ++ (d ++ post)) := by
    rw [skipWs_append _ hwa]
    exact skipWs_no (headNot_cons (by decide))
  simp only [rangeTail, h1, if_pos]
  rw [skipWs_append _ hwb]
  rw [skipWs_no (by
    obtain ⟨d0, ds0, rfl⟩ : ∃ d0 ds0, d = d0 :: ds0 := by
      cases d with
      | nil => exact absurd rfl hd
      | cons a b => exact ⟨a, b, rfl⟩
    simp only [List.cons_append]
    exact headNot_cons (digit_not_ws (hdall d0 (by simp))))]
  exact digitsP_append _ hd hdall hpostD

theorem repsPart_exact (w2 dC : List Char)
    (rD : Option (List Char × List Char × List Char)) (post : List Char)
    (hw2 : ∀ c ∈ w2, c.isWhitespace = true)
    (hdC : dC ≠ []) (hdCall : ∀ c ∈ dC, c.isDigit = true)
    (hrD : RangeOk rD)
    (hpostTail : rangeTail post = none)
    (hpostD : HeadNot Char.isDigit post) :
    repsPart (w2 ++ (dC ++ (rangeStr rD ++ post))) =
      some (digitsVal dC, rangeVal rD) := by
  obtain ⟨c0, cs0, rfl⟩ : ∃ c0 cs0, dC = c0 :: cs0 := by
    cases dC with
    | nil => exact absurd rfl hdC
    | cons a b => exact ⟨a, b, rfl⟩
  have h1 : skipWs (w2 ++ (c0 :: cs0 ++ (rangeStr rD ++ post))) =
      c0 :: cs0 ++ (rangeStr rD ++ post) := by
    rw [skipWs_append _ hw2]
    exact skipWs_no (by
      simp only [List.cons_append]
      exact headNot_cons (digit_not_ws (hdCall c0 (by simp))))
  have h2 : digitsP (c0 :: cs0 ++ (rangeStr rD ++ post)) =
      some (digitsVal (c0 :: cs0), rangeStr rD ++ post) :=
    digitsP_append _ (by simp) hdCall (headNot_digit_range rD hrD post hpostD)
  rcases rD with _ | ⟨wa, wb, d⟩
  · have h3 : rangeTail (rangeStr none ++ post) = none := by
      simpa [rangeStr] using hpostTail
    simp only [repsPart, h1, h2, h3, rangeVal]
  · obtain ⟨hwa, hwb, hd, hdall⟩ := hrD
    have h3 : rangeTail (rangeStr (some (wa, wb, d)) ++ post) =
        some (digitsVal d, post) := by
      have he : rangeStr (some (wa, wb, d)) ++ post =
          wa ++ ('-' :: (wb ++ (d ++ post))) := by
        simp [rangeStr, List.append_assoc]
      rw [he]
      exact rangeTail_exact wa wb d post hwa hwb hd hdall hpostD
    simp only [repsPart, h1, h2, h3, rangeVal]

theorem xPart_exact (w1 : List Char) (xc : Char) (w2 dC : List Char)
    (rD : Option (List Char × List Char × List Char)) (post : List Char)
    (hw1 : ∀ c ∈ w1, c.isWhitespace = true) (hx : isX xc = true)
    (hw2 : ∀ c ∈ w2, c.isWhitespace = true)
    (hdC : dC ≠ []) (hdCall : ∀ c ∈ dC, c.isDigit = true)
    (hrD : RangeOk rD)
    (hpostTail : rangeTail post = none)
    (hpostD : HeadNot Char.isDigit post) :
    xPart (w1 ++ xc :: (w2 ++ (dC ++ (rangeStr rD ++ post)))) =
      some (digitsVal dC, rangeVal rD) := by
  have h1 : skipWs (w1 ++ xc :: (w2 ++ (dC ++ (rangeStr rD ++ post)))) =
      xc :: (w2 ++ (dC ++ (rangeStr rD ++ post))) := by
    rw [skipWs_append _ hw1]
    exact skipWs_no (headNot_cons (isX_not_ws hx))
  simp only [xPart, h1, hx, if_pos]
  exact repsPart_exact w2 dC rD post hw2 hdC hdCall hrD hpostTail hpostD

theorem matchAt_exact (dA : List Char)
    (rB : Option (List Char × List Char × List Char))
    (w1 : List Char) (xc : Char) (w2 dC : List Char)
    (rD : Option (List Char × List Char × List Char)) (post : List Char)
    (hdA : dA ≠ []) (hdAall : ∀ c ∈ dA, c.isDigit = true)
    (hrB : RangeOk rB)
    (hw1 : ∀ c ∈ w1, c.isWhitespace = true) (hx : isX xc = true)
    (hw2 : ∀ c ∈ w2, c.isWhitespace = true)
    (hdC : dC ≠ []) (hdCall : ∀ c ∈ dC, c.isDigit = true)
    (hrD : RangeOk rD)
    (hpostTail : rangeTail post = none)
    (hpostD : HeadNot Char.isDigit post) :
    matchAt (dA ++ (rangeStr rB ++
        (w1 ++ xc :: (w2 ++ (dC ++ (rangeStr rD ++ post)))))) =
      some ⟨digitsVal dA, rangeVal rB, digitsVal dC, rangeVal rD⟩ := by
  have htail : HeadNot Char.isDigit
      (w1 ++ xc :: (w2 ++ (dC ++ (rangeStr rD ++ post)))) :=
    headNot_wsThen (fun c h => ws_not_digit h) hw1
      (headNot_cons (isX_not_digit hx))
  have h1 : digitsP (dA ++ (rangeStr rB ++
      (w1 ++ xc :: (w2 ++ (dC ++ (rangeStr rD ++ post)))))) =
      some (digitsVal dA,
        rangeStr rB ++ (w1 ++ xc :: (w2 ++ (dC ++ (rangeStr rD ++ post))))) :=
    digitsP_append _ hdA hdAall (headNot_digit_range rB hrB _ htail)
  have hxp : xPart (w1 ++ xc :: (w2 ++ (dC ++ (rangeStr rD ++ post)))) =
      some (digitsVal dC, rangeVal rD) :=
    xPart_exact w1 xc w2 dC rD post hw1 hx hw2 hdC hdCall hrD hpostTail hpostD
  rcases rB with _ | ⟨wa, wb, dB⟩
  · have h2 : rangeTail (w1 ++ xc :: (w2 ++ (dC ++ (rangeStr rD ++ post)))) =
        none := by
      simp only [rangeTail]
      rw [skipWs_append _ hw1, skipWs_no (headNot_cons (isX_not_ws hx))]
      simp [isX_ne_dash hx]
    have h1n : digitsP (dA ++ (w1 ++ xc :: (w2 ++ (dC ++ (rangeStr rD ++ post))))) =
        some (digitsVal dA, w1 ++ xc :: (w2 ++ (dC ++ (rangeStr rD ++ post)))) := by
      simpa [rangeStr] using h1
    simp only [show rangeStr (none : Option (List Char × List Char × List Char)) =
        ([] : List Char) from rfl,
      show rangeVal (none : Option (List Char × List Char × List Char)) =
        (none : Option Nat) from rfl, List.nil_append]
    simp only [matchAt, h1n, h2, hxp, Option.map_some']
  · obtain ⟨hwa, hwb, hdB, hdBall⟩ := hrB
    have h2 : rangeTail (rangeStr (some (wa, wb, dB)) ++
        (w1 ++ xc :: (w2 ++ (dC ++ (rangeStr rD ++ post))))) =
        some (digitsVal dB,
          w1 ++ xc :: (w2 ++ (dC ++ (rangeStr rD ++ post)))) := by
      have he : rangeStr (some (wa, wb, dB)) ++
          (w1 ++ xc :: (w2 ++ (dC ++ (rangeStr rD ++ post)))) =
          wa ++ ('-' :: (wb ++ (dB ++
            (w1 ++ xc :: (w2 ++ (dC ++ (rangeStr rD ++ post))))))) := by
        simp [rangeStr, List.append_assoc]
      rw [he]
      exact rangeTail_exact wa wb dB _ hwa hwb hdB hdBall htail
    simp only [matchAt, h1, h2, hxp, rangeVal]

theorem findMatch_head {cs : List Char} {m : RxMatch}
    (h : matchAt cs = some m) : findMatch cs = some m := by
  cases cs with
  | nil => exact absurd h (by simp [matchAt, digitsP])
  | cons c cs => simp [findMatch, h]

/-! ## Soundness: a successful match exhibits a scheme substring -/

theorem digitsAux_sound {cs : List Char} {acc n : Nat} {rest : List Char}
    (h : digitsAux acc cs = (n, rest)) :
    ∃ ds, cs = ds ++ rest ∧ ∀ c ∈ ds, c.isDigit = true := by
  induction cs generalizing acc with
  | nil =>
    simp only [digitsAux, Prod.mk.injEq] at h
    exact ⟨[], by simp [h.2], by simp⟩
  | cons c cs ih =>
    by_cases hc : c.isDigit = true
    · simp only [digitsAux, hc, if_pos] at h
      obtain ⟨ds, hds, hall⟩ := ih h
      exact ⟨c :: ds, by simp [hds], by
        intro x hx
        rcases List.mem_cons.mp hx with rfl | hx
        · exact hc
        · exact hall x hx⟩
    · simp only [digitsAux, if_neg hc, Prod.mk.injEq] at h
      exact ⟨[], by simp [h.2], by simp⟩

theorem digitsP_sound {cs : List Char} {n : Nat} {rest : List Char}
    (h : digitsP cs = some (n, rest)) :
    ∃ ds, ds ≠ [] ∧ (∀ c ∈ ds, c.isDigit = true) ∧ cs = ds ++ rest := by
  cases cs with
  | nil => exact absurd h (by simp [digitsP])
  | cons c cs =>
    by_cases hc : c.isDigit = true
    · simp only [digitsP, hc, if_pos, Option.some.injEq] at h
      obtain ⟨ds, hds, hall⟩ := digitsAux_sound h
      refine ⟨c :: ds, by simp, ?_, by simp [hds]⟩
      intro x hx
      rcases List.mem_cons.mp hx with rfl | hx
      · exact hc
      · exact hall x hx
    · simp [digitsP, hc] at h

theorem skipWs_sound (cs : List Char) :
    ∃ ws, cs = ws ++ skipWs cs ∧ ∀ c ∈ ws, c.isWhitespace = true := by
  induction cs with
  | nil => exact ⟨[], rfl, by simp⟩
  | cons c cs ih =>
    by_cases hc : c.isWhitespace = true
    · obtain ⟨ws, hws, hall⟩ := ih
      refine ⟨c :: ws, ?_, ?_⟩
      · simp only [skipWs, List.dropWhile_cons, hc, if_pos]
        simpa [skipWs] using hws
      · intro x hx
        rcases List.mem_cons.mp hx with rfl | hx
        · exact hc
        · exact hall x hx
    · exact ⟨[], by simp [skipWs, List.dropWhile_cons, hc], by simp⟩

theorem rangeTail_sound {cs : List Char} {n : Nat} {rest : List Char}
    (h : rangeTail cs = some (n, rest)) :
    ∃ wa wb d, cs = wa ++ ('-' :: (wb ++ (d ++ rest))) ∧
      (∀ c ∈ wa, c.isWhitespace = true) ∧ (∀ c ∈ wb, c.isWhitespace = true) ∧
      d ≠ [] ∧ ∀ c ∈ d, c.isDigit = true := by
  obtain ⟨wa, hwa, hwaall⟩ := skipWs_sound cs
  simp only [rangeTail] at h
  cases hsk : skipWs cs with
  | nil => rw [hsk] at h; exact absurd h (by simp)
  | cons c cs2 =>
    rw [hsk] at h hwa
    by_cases hc : c = '-'
    · subst hc
      simp only [reduceIte] at h
      obtain ⟨wb, hwb, hwball⟩ := skipWs_sound cs2
      obtain ⟨d, hd, hdall, hds⟩ := digitsP_sound h
      rw [hds] at hwb
      exact ⟨wa, wb, d, by rw [hwa, hwb], hwaall, hwball, hd, hdall⟩
    · simp [hc] at h

theorem repsPart_sound {cs : List Char} {p : Nat × Option Nat}
    (h : repsPart cs = some p) :
    ∃ w2 dC rD tail, cs = w2 ++ (dC ++ (rangeStr rD ++ tail)) ∧
      (∀ c ∈ w2, c.isWhitespace = true) ∧
      dC ≠ [] ∧ (∀ c ∈ dC, c.isDigit = true) ∧ RangeOk rD := by
  obtain ⟨w2, hw2, hw2all⟩ := skipWs_sound cs
  simp only [repsPart] at h
  cases hdp : digitsP (skipWs cs) with
  | none => rw [hdp] at h; exact absurd h (by simp)
  | some q =>
    obtain ⟨n, rest⟩ := q
    rw [hdp] at h
    obtain ⟨dC, hdC, hdCall, hds⟩ := digitsP_sound hdp
    cases hrt : rangeTail rest with
    | none =>
      refine ⟨w2, dC, none, rest, ?_, hw2all, hdC, hdCall, trivial⟩
      rw [hw2, hds]
      simp [rangeStr]
    | some q2 =>
      obtain ⟨n2, rest2⟩ := q2
      obtain ⟨wa, wb, d, hrest, hwaall, hwball, hd, hdall⟩ := rangeTail_sound hrt
      refine ⟨w2, dC, some (wa, wb, d), rest2, ?_, hw2all,
        hdC, hdCall, hwaall, hwball, hd, hdall⟩
      rw [hw2, hds, hrest]
      simp [rangeStr, List.append_assoc]

theorem xPart_sound {cs : List Char} {p : Nat × Option Nat}
    (h : xPart cs = some p) :
    ∃ w1 xc w2 dC rD tail,
      cs = w1 ++ xc :: (w2 ++ (dC ++ (rangeStr rD ++ tail))) ∧
      (∀ c ∈ w1, c.isWhitespace = true) ∧ isX xc = true ∧
      (∀ c ∈ w2, c.isWhitespace = true) ∧
      dC ≠ [] ∧ (∀ c ∈ dC, c.isDigit = true) ∧ RangeOk rD := by
  obtain ⟨w1, hw1, hw1all⟩ := skipWs_sound cs
  simp only [xPart] at h
  cases hsk : skipWs cs with
  | nil => rw [hsk] at h; exact absurd h (by simp)
  | cons c cs2 =>
    rw [hsk] at h hw1
    by_cases hc : isX c = true
    · simp only [hc, if_true] at h
      obtain ⟨w2, dC, rD, tail, hcs2, hw2all, hdC, hdCall, hrD⟩ :=
        repsPart_sound h
      exact ⟨w1, c, w2, dC, rD, tail, by rw [hw1, hcs2], hw1all, hc,
        hw2all, hdC, hdCall, hrD⟩
    · simp [hc] at h

theorem matchAt_sound {cs : List Char} {m : RxMatch}
    (h : matchAt cs = some m) :
    ∃ mid tail, cs = mid ++ tail ∧ IsScheme mid := by
  cases hdp : digitsP cs with
  | none =>
    have : matchAt cs = none := by simp [matchAt, hdp]
    rw [this] at h
    cases h
  | some q =>
    obtain ⟨n, rest⟩ := q
    obtain ⟨dA, hdA, hdAall, hcs⟩ := digitsP_sound hdp
    have fromXPart :
        ∀ {p : Nat × Option Nat}, xPart rest = some p →
          ∃ mid tail, cs = mid ++ tail ∧ IsScheme mid := by
      intro p hx
      obtain ⟨w1, xc, w2, dC, rD, tail, hrest, hw1all, hxc, hw2all,
        hdC, hdCall, hrD⟩ := xPart_sound hx
      refine ⟨dA ++ (rangeStr none ++ (w1 ++ xc :: (w2 ++ (dC ++ rangeStr rD)))),
        tail, ?_, dA, none, w1, xc, w2, dC, rD, rfl, hdA, hdAall, trivial,
        hw1all, hxc, hw2all, hdC, hdCall, hrD⟩
      rw [hcs, hrest]
      simp [rangeStr, List.append_assoc]
    cases hrt : rangeTail rest with
    | none =>
      cases hx : xPart rest with
      | none =>
        have : matchAt cs = none := by simp [matchAt, hdp, hrt, hx]
        rw [this] at h
        cases h
      | some p => exact fromXPart hx
    | some q2 =>
      obtain ⟨b, rest2⟩ := q2
      cases hx2 : xPart rest2 with
      | none =>
        cases hx : xPart rest with
        | none =>
          have : matchAt cs = none := by simp [matchAt, hdp, hrt, hx2, hx]
          rw [this] at h
          cases h
        | some p => exact fromXPart hx
      | some p2 =>
        obtain ⟨wa, wb, dB, hrest, hwaall, hwball, hdB, hdBall⟩ :=
          rangeTail_sound hrt
        obtain ⟨w1, xc, w2, dC, rD, tail, hrest2, hw1all, hxc, hw2all,
          hdC, hdCall, hrD⟩ := xPart_sound hx2
        refine ⟨dA ++ (rangeStr (some (wa, wb, dB)) ++
            (w1 ++ xc :: (w2 ++ (dC ++ rangeStr rD)))), tail, ?_,
          dA, some (wa, wb, dB), w1, xc, w2, dC, rD, rfl, hdA, hdAall,
          ⟨hwaall, hwball, hdB, hdBall⟩, hw1all, hxc, hw2all, hdC, hdCall, hrD⟩
        rw [hcs, hrest, hrest2]
        simp [rangeStr, List.append_assoc]

theorem findMatch_sound {cs : List Char} {m : RxMatch}
    (h : findMatch cs = some m) :
    ∃ pre suf, cs = pre ++ suf ∧ matchAt suf = some m := by
  induction cs with
  | nil => exact absurd h (by simp [findMatch])
  | cons c cs ih =>
    simp only [findMatch] at h
    cases hma : matchAt (c :: cs) with
    | some m2 =>
      rw [hma] at h
      cases h
      exact ⟨[], c :: cs, rfl, hma⟩
    | none =>
      rw [hma] at h
      obtain ⟨pre, suf, hcs, hsuf⟩ := ih h
      exact ⟨c :: pre, suf, by simp [hcs], hsuf⟩

/-! ## Completeness: a scheme substring guarantees a match -/

theorem repsPart_succ (w2 : List Char) {c0 : Char} (rest : List Char)
    (hw2 : ∀ c ∈ w2, c.isWhitespace = true) (hc0 : c0.isDigit = true) :
    ∃ p, repsPart (w2 ++ (c0 :: rest)) = some p := by
  have h1 : skipWs (w2 ++ (c0 :: rest)) = c0 :: rest := by
    rw [skipWs_append _ hw2]
    exact skipWs_no (headNot_cons (digit_not_ws hc0))
  simp only [repsPart, h1, digitsP, hc0, if_pos]
  cases rangeTail (digitsAux (digitVal c0) rest).2 <;> simp

theorem xPart_succ (w1 : List Char) {xc : Char} (w2 : List Char) {c0 : Char}
    (rest : List Char)
    (hw1 : ∀ c ∈ w1, c.isWhitespace = true) (hx : isX xc = true)
    (hw2 : ∀ c ∈ w2, c.isWhitespace = true) (hc0 : c0.isDigit = true) :
    ∃ p, xPart (w1 ++ xc :: (w2 ++ (c0 :: rest))) = some p := by
  have h1 : skipWs (w1 ++ xc :: (w2 ++ (c0 :: rest))) =
      xc :: (w2 ++ (c0 :: rest)) := by
    rw [skipWs_append _ hw1]
    exact skipWs_no (headNot_cons (isX_not_ws hx))
  simp only [xPart, h1, hx, if_pos]
  exact repsPart_succ w2 _ hw2 hc0

theorem matchAt_succ {mid : List Char} (post : List Char)
    (h : IsScheme mid) : ∃ m, matchAt (mid ++ post) = some m := by
  obtain ⟨dA, rB, w1, xc, w2, dC, rD, rfl, hdA, hdAall, hrB,
    hw1all, hxc, hw2all, hdC, hdCall, hrD⟩ := h
  obtain ⟨c0, cs0, rfl⟩ : ∃ c0 cs0, dC = c0 :: cs0 := by
    cases dC with
    | nil => exact absurd rfl hdC
    | cons a b => exact ⟨a, b, rfl⟩
  have hc0 : c0.isDigit = true := hdCall c0 (by simp)
  have hshape : (dA ++ (rangeStr rB ++
      (w1 ++ xc :: (w2 ++ (c0 :: cs0 ++ rangeStr rD))))) ++ post =
      dA ++ (rangeStr rB ++
        (w1 ++ xc :: (w2 ++ (c0 :: (cs0 ++ (rangeStr rD ++ post)))))) := by
    simp [List.append_assoc]
  rw [hshape]
  have htail : HeadNot Char.isDigit
      (w1 ++ xc :: (w2 ++ (c0 :: (cs0 ++ (rangeStr rD ++ post))))) :=
    headNot_wsThen (fun c hw => ws_not_digit hw) hw1all
      (headNot_cons (isX_not_digit hxc))
  have h1 : digitsP (dA ++ (rangeStr rB ++
      (w1 ++ xc :: (w2 ++ (c0 :: (cs0 ++ (rangeStr rD ++ post))))))) =
      some (digitsVal dA, rangeStr rB ++
        (w1 ++ xc :: (w2 ++ (c0 :: (cs0 ++ (rangeStr rD ++ post)))))) :=
    digitsP_append _ hdA hdAall (headNot_digit_range rB hrB _ htail)
  obtain ⟨px, hpx⟩ :=
    xPart_succ w1 w2 (cs0 ++ (rangeStr rD ++ post)) hw1all hxc hw2all hc0
  rcases rB with _ | ⟨wa, wb, dB⟩
  · have h1n : digitsP (dA ++
        (w1 ++ xc :: (w2 ++ (c0 :: (cs0 ++ (rangeStr rD ++ post)))))) =
        some (digitsVal dA,
          w1 ++ xc :: (w2 ++ (c0 :: (cs0 ++ (rangeStr rD ++ post))))) := by
      simpa [rangeStr] using h1
    have h2 : rangeTail
        (w1 ++ xc :: (w2 ++ (c0 :: (cs0 ++ (rangeStr rD ++ post))))) =
        none := by
      simp only [rangeTail]
      rw [skipWs_append _ hw1all, skipWs_no (headNot_cons (isX_not_ws hxc))]
      simp [isX_ne_dash hxc]
    refine ⟨⟨digitsVal dA, none, px.1, px.2⟩, ?_⟩
    simp only [show rangeStr (none : Option (List Char × List Char × List Char)) =
        ([] : List Char) from rfl, List.nil_append]
    simp only [matchAt, h1n, h2, hpx, Option.map_some']
  · obtain ⟨hwa, hwb, hdB, hdBall⟩ := hrB
    have h2 : rangeTail (rangeStr (some (wa, wb, dB)) ++
        (w1 ++ xc :: (w2 ++ (c0 :: (cs0 ++ (rangeStr rD ++ post)))))) =
        some (digitsVal dB,
          w1 ++ xc :: (w2 ++ (c0 :: (cs0 ++ (rangeStr rD ++ post))))) := by
      have he : rangeStr (some (wa, wb, dB)) ++
          (w1 ++ xc :: (w2 ++ (c0 :: (cs0 ++ (rangeStr rD ++ post))))) =
          wa ++ ('-' :: (wb ++ (dB ++
            (w1 ++ xc :: (w2 ++ (c0 :: (cs0 ++ (rangeStr rD ++ post)))))))) := by
        simp [rangeStr, List.append_assoc]
      rw [he]
      exact rangeTail_exact wa wb dB _ hwa hwb hdB hdBall htail
    refine ⟨⟨digitsVal dA, some (digitsVal dB), px.1, px.2⟩, ?_⟩
    simp only [matchAt, h1, h2, hpx]

theorem findMatch_of_suffix {pre suf : List Char} {m : RxMatch}
    (h : matchAt suf = some m) : ∃ m2, findMatch (pre ++ suf) = some m2 := by
  induction pre with
  | nil =>
    cases suf with
    | nil => exact absurd h (by simp [matchAt, digitsP])
    | cons c cs => exact ⟨m, by simpa [findMatch] using findMatch_head h⟩
  | cons p pre ih =>
    obtain ⟨m2, hm2⟩ := ih
    cases hma : matchAt (p :: (pre ++ suf)) with
    | some m3 => exact ⟨m3, by simp [findMatch, hma]⟩
    | none => exact ⟨m2, by simp [findMatch, hma, hm2]⟩

/-- The regex search succeeds exactly on strings containing a scheme
substring. -/
theorem findMatch_none_iff (cs : List Char) :
    findMatch cs = none ↔ ¬ HasScheme cs := by
  constructor
  · intro h hs
    obtain ⟨pre, mid, post, rfl, hmid⟩ := hs
    obtain ⟨m, hm⟩ := matchAt_succ post hmid
    obtain ⟨m2, hm2⟩ := @findMatch_of_suffix pre (mid ++ post) m hm
    rw [h] at hm2
    cases hm2
  · intro h
    cases hfm : findMatch cs with
    | none => rfl
    | some m =>
      obtain ⟨pre, suf, rfl, hsuf⟩ := findMatch_sound hfm
      obtain ⟨mid, tail, rfl, hmid⟩ := matchAt_sound hsuf
      exact absurd ⟨pre, mid, tail, by simp [List.append_assoc], hmid⟩ h

/-! ## String-level plumbing for `parseRx` -/

theorem parseRx_mk (cs : List Char) :
    parseRx (some (String.mk cs)) =
      if cs = [] then none else parseRxChars cs := by
  by_cases h : cs = []
  · subst h
    simp [parseRx]
  · rw [if_neg h]
    simp only [parseRx]
    rw [if_neg (fun habs => h (by simpa using congrArg String.data habs))]
    rfl

theorem altPrefix_length {cs : List Char} (h : altPrefix cs = true) :
    4 ≤ cs.length := by
  simp only [altPrefix, decide_eq_true_eq] at h
  have hl : ((cs.take 4).map Char.toLower).length = 4 := by rw [h]; rfl
  simp only [List.length_map, List.length_take] at hl
  omega

theorem altPrefix_append {cs : List Char} (rest : List Char)
    (h : altPrefix cs = true) : altPrefix (cs ++ rest) = true := by
  have hl := altPrefix_length h
  simp only [altPrefix, decide_eq_true_eq] at h ⊢
  rw [List.take_append_of_le_length hl]
  exact h

theorem altPrefix_prefix {cs rest : List Char}
    (h : altPrefix (cs ++ rest) = false) : altPrefix cs = false := by
  cases hap : altPrefix cs with
  | false => rfl
  | true => rw [altPrefix_append rest hap] at h; cases h

theorem altPrefix_digit_head {c : Char} {cs : List Char}
    (hd : c.isDigit = true) : altPrefix (c :: cs) = false := by
  simp only [altPrefix]
  apply decide_eq_false
  intro heq
  rw [List.take_succ_cons, List.map_cons] at heq
  exact digit_ne_lower_a hd (List.cons_eq_cons.mp heq).1

theorem sideAt_head {c : Char} {cs : List Char}
    (h : sideAt (c :: cs) = true) : c = '/' := by
  rcases cs with _ | ⟨b, _ | ⟨c2, _ | ⟨d2, _ | ⟨e2, t⟩⟩⟩⟩
  · simp [sideAt] at h
  · simp [sideAt] at h
  · simp [sideAt] at h
  · simp [sideAt] at h
  · simp only [sideAt, Bool.and_eq_true, decide_eq_true_eq] at h
    exact h.1.1.1.1

theorem stripSide_id {cs : List Char} (h : ∀ c ∈ cs, c ≠ '/') :
    stripSide cs = cs := by
  induction cs with
  | nil => rfl
  | cons c cs ih =>
    have hs : sideAt (c :: cs) = false := by
      cases hsa : sideAt (c :: cs) with
      | false => rfl
      | true => exact absurd (sideAt_head hsa) (h c (by simp))
    simp only [stripSide, hs, Bool.false_eq_true, if_false]
    rw [ih (fun x hx => h x (by simp [hx]))]

theorem stripSide_append_no_slash {ul : List Char} (rest : List Char)
    (hu : ∀ c ∈ ul, c ≠ '/') :
    stripSide (ul ++ rest) = ul ++ stripSide rest := by
  induction ul with
  | nil => simp
  | cons u us ih =>
    have hs : sideAt (u :: (us ++ rest)) = false := by
      cases hsa : sideAt (u :: (us ++ rest)) with
      | false => rfl
      | true => exact absurd (sideAt_head hsa) (hu u (by simp))
    simp only [List.cons_append, stripSide, List.append_eq, hs,
      Bool.false_eq_true, if_false]
    rw [ih (fun x hx => hu x (by simp [hx]))]

theorem stripSide_side {ul w : List Char} (hu : ∀ c ∈ ul, c ≠ '/')
    (hw : w.map Char.toLower = ['s', 'i', 'd', 'e']) :
    stripSide (ul ++ '/' :: w) = ul := by
  have hlen : w.length = 4 := by
    have h4 := congrArg List.length hw
    simpa using h4
  rw [stripSide_append_no_slash _ hu]
  have hside : stripSide ('/' :: w) = [] := by
    have hsa : sideAt ('/' :: w) = true := by
      rcases w with _ | ⟨b, _ | ⟨c2, _ | ⟨d2, _ | ⟨e2, t⟩⟩⟩⟩ <;>
        simp only [List.length_cons, List.length_nil] at hlen <;> try omega
      obtain ⟨hb, hc2, hd2, he2, ht⟩ : b.toLower = 's' ∧ c2.toLower = 'i' ∧
          d2.toLower = 'd' ∧ e2.toLower = 'e' ∧ t.map Char.toLower = [] := by
        simpa using hw
      have : t = [] := by simpa using congrArg List.length ht
      subst this
      simp [sideAt, hb, hc2, hd2, he2]
    simp only [stripSide, hsa, if_true]
    rw [List.drop_eq_nil_iff]
    omega
  rw [hside, List.append_nil]

theorem lastComma_append (u tl : List Char) (h : ∀ c ∈ tl, c ≠ ',') :
    lastComma (u ++ ',' :: tl) = tl := by
  unfold lastComma
  rw [List.reverse_append, List.reverse_cons, List.append_assoc]
  rw [List.takeWhile_append_of_pos (by
    intro a ha
    simpa using h a (List.mem_reverse.mp ha))]
  have h2 : List.takeWhile (fun c => decide (c ≠ ','))
      ([','] ++ u.reverse) = [] := by
    simp
  rw [h2, List.append_nil, List.reverse_reverse]

theorem rangeStr_no_slash (r : Option (List Char × List Char × List Char))
    (h : RangeOk r) : ∀ c ∈ rangeStr r, c ≠ '/' := by
  rcases r with _ | ⟨wa, wb, d⟩
  · simp [rangeStr]
  · obtain ⟨hwa, hwb, hd, hdall⟩ := h
    intro c hc
    simp only [rangeStr, List.mem_append, List.mem_cons] at hc
    rcases hc with hc | hc | hc | hc
    · exact ws_ne_slash (hwa c hc)
    · subst hc; decide
    · exact ws_ne_slash (hwb c hc)
    · exact digit_ne_slash (hdall c hc)

theorem parseRxChars_none_iff (cs : List Char) :
    parseRxChars cs = none ↔ findMatch (preprocRx cs) = none := by
  simp only [parseRxChars]
  cases findMatch (preprocRx cs) <;> simp

/-! ## Claim theorems: RxParser -/

/-- C2: for every rx string of the canonical shape `A[-B] x C[-D]` —
digit strings `dA`/`dC`, optional range parts `rB`/`rD`, optional
whitespace, `x`/`X`/`×` separator — `parseRx` returns the upper bound of
each side when a range is present and the single value otherwise:
`maxSets = B` if present else `A`, `maxReps = D` if present else `C`. -/
theorem claim_C2 (dA dC w1 w2 : List Char) (xc : Char)
    (rB rD : Option (List Char × List Char × List Char))
    (hdA : dA ≠ []) (hdAall : ∀ c ∈ dA, c.isDigit = true)
    (hdC : dC ≠ []) (hdCall : ∀ c ∈ dC, c.isDigit = true)
    (hw1 : ∀ c ∈ w1, c.isWhitespace = true)
    (hw2 : ∀ c ∈ w2, c.isWhitespace = true)
    (hx : isX xc = true) (hrB : RangeOk rB) (hrD : RangeOk rD) :
    parseRx (some (String.mk
        (dA ++ (rangeStr rB ++ (w1 ++ xc :: (w2 ++ (dC ++ rangeStr rD))))))) =
      some ⟨(rangeVal rB).getD (digitsVal dA),
            (rangeVal rD).getD (digitsVal dC)⟩ := by
  obtain ⟨a0, dA', rfl⟩ : ∃ a0 dA', dA = a0 :: dA' := by
    cases dA with
    | nil => exact absurd rfl hdA
    | cons a b => exact ⟨a, b, rfl⟩
  have ha0 : a0.isDigit = true := hdAall a0 (by simp)
  rw [parseRx_mk, if_neg (by simp)]
  have hap : altPrefix ((a0 :: dA') ++
      (rangeStr rB ++ (w1 ++ xc :: (w2 ++ (dC ++ rangeStr rD))))) = false := by
    simp only [List.cons_append]
    exact altPrefix_digit_head ha0
  have hslash : ∀ c ∈ (a0 :: dA') ++
      (rangeStr rB ++ (w1 ++ xc :: (w2 ++ (dC ++ rangeStr rD)))), c ≠ '/' := by
    intro c hc
    simp only [List.mem_append, List.mem_cons] at hc
    rcases hc with hc | hc | hc | rfl | hc | hc | hc
    · exact digit_ne_slash (hdAall c (by simp [hc]))
    · exact rangeStr_no_slash rB hrB c hc
    · exact ws_ne_slash (hw1 c hc)
    · exact isX_ne_slash hx
    · exact ws_ne_slash (hw2 c hc)
    · exact digit_ne_slash (hdCall c hc)
    · exact rangeStr_no_slash rD hrD c hc
  have hpre : preprocRx ((a0 :: dA') ++
      (rangeStr rB ++ (w1 ++ xc :: (w2 ++ (dC ++ rangeStr rD))))) =
      (a0 :: dA') ++ (rangeStr rB ++ (w1 ++ xc :: (w2 ++ (dC ++ rangeStr rD)))) := by
    simp only [preprocRx, hap, Bool.false_eq_true, if_false]
    exact stripSide_id hslash
  have hshape : (a0 :: dA') ++
      (rangeStr rB ++ (w1 ++ xc :: (w2 ++ (dC ++ rangeStr rD)))) =
      (a0 :: dA') ++ (rangeStr rB ++
        (w1 ++ xc :: (w2 ++ (dC ++ (rangeStr rD ++ []))))) := by
    simp
  have hfm : findMatch ((a0 :: dA') ++
      (rangeStr rB ++ (w1 ++ xc :: (w2 ++ (dC ++ rangeStr rD))))) =
      some ⟨digitsVal (a0 :: dA'), rangeVal rB, digitsVal dC, rangeVal rD⟩ := by
    rw [hshape]
    exact findMatch_head (matchAt_exact (a0 :: dA') rB w1 xc w2 dC rD []
      (by simp) hdAall hrB hw1 hx hw2 hdC hdCall hrD rfl headNot_nil)
  simp only [parseRxChars, hpre, hfm]

/-- C2 witness: `parseRx "2-3 x 8-10" = {maxSets := 3, maxReps := 10}`,
obtained from `claim_C2` at the concrete decomposition. -/
theorem claim_C2_witness :
    parseRx (some (String.mk
        ['2', '-', '3', ' ', 'x', ' ', '8', '-', '1', '0'])) =
      some ⟨3, 10⟩ := by
  have h := claim_C2 ['2'] ['8'] [' '] [' '] 'x'
    (some ([], [], ['3'])) (some ([], [], ['1', '0']))
    (by decide) (by decide) (by decide) (by decide) (by decide) (by decide)
    (by decide) ⟨by decide, by decide, by decide, by decide⟩
    ⟨by decide, by decide, by decide, by decide⟩
  simpa [rangeStr, rangeVal, digitsVal, digitVal] using h

/-- C3: (a) for a string with a case-insensitive `alt:` prefix followed by
a comma and a comma-free last scheme, `parseRx` parses only the trimmed
last scheme; (b) a case-insensitive `/side` suffix is stripped and does
not affect the result; (c) `parseRx "alt: 3x5, 4x5-6" = {4, 6}`. -/
theorem claim_C3 :
    (∀ sl tl : List Char, altPrefix sl = true → (∀ c ∈ tl, c ≠ ',') →
      altPrefix (trimChars tl) = false →
      parseRx (some (String.mk (sl ++ ',' :: tl))) =
        parseRx (some (String.mk (trimChars tl)))) ∧
    (∀ ul w : List Char, (∀ c ∈ ul, c ≠ '/') →
      w.map Char.toLower = ['s', 'i', 'd', 'e'] →
      altPrefix (ul ++ '/' :: w) = false →
      parseRx (some (String.mk (ul ++ '/' :: w))) =
        parseRx (some (String.mk ul))) ∧
    parseRx (some "alt: 3x5, 4x5-6") = some ⟨4, 6⟩ := by
  refine ⟨?_, ?_, by decide⟩
  · intro sl tl halt hcomma htrim
    have hl4 := altPrefix_length halt
    rw [parseRx_mk, parseRx_mk, if_neg (by simp)]
    have hap : altPrefix (sl ++ ',' :: tl) = true := altPrefix_append _ halt
    have hdrop : (sl ++ ',' :: tl).drop 4 = sl.drop 4 ++ ',' :: tl :=
      List.drop_append_of_le_length hl4
    have hlast : lastComma ((sl ++ ',' :: tl).drop 4) = tl := by
      rw [hdrop]
      exact lastComma_append _ _ hcomma
    by_cases ht : trimChars tl = []
    · rw [if_pos ht]
      simp [parseRxChars, preprocRx, hap, hlast, ht, stripSide, findMatch]
    · rw [if_neg ht]
      simp only [parseRxChars, preprocRx, hap, if_true, hlast, htrim,
        Bool.false_eq_true, if_false]
  · intro ul w hu hw halt
    rw [parseRx_mk, parseRx_mk, if_neg (by simp)]
    have hstrip : stripSide (ul ++ '/' :: w) = ul := stripSide_side hu hw
    have haul : altPrefix ul = false := altPrefix_prefix halt
    by_cases hue : ul = []
    · rw [if_pos hue]
      subst hue
      simp only [List.nil_append] at halt hstrip
      simp [parseRxChars, preprocRx, halt, hstrip, findMatch]
    · rw [if_neg hue]
      simp only [parseRxChars, preprocRx, halt, haul, Bool.false_eq_true,
        if_false, hstrip, stripSide_id hu]

/-- C3 witness: part (a) of `claim_C3` applied at
`"alt:3x5" ++ "," ++ " 4x6 "`, whose trimmed last scheme parses like the
standalone string `"4x6"`. -/
theorem claim_C3_witness :
    parseRx (some (String.mk ("alt:3x5".toList ++ ',' :: " 4x6 ".toList))) =
      parseRx (some (String.mk (trimChars " 4x6 ".toList))) := by
  exact claim_C3.1 "alt:3x5".toList " 4x6 ".toList
    (by decide) (by decide) (by decide)

/-- C4: `parseRx` returns `none` exactly when the input is `undefined`,
the empty string, or a string whose preprocessed form (last `alt:` scheme
selected, `/side` stripped) contains no substring of the scheme grammar
`A[-B] x C[-D]`; every other input yields a numeric result. -/
theorem claim_C4 (rx : Option String) :
    parseRx rx = none ↔
      rx = none ∨ ∃ s : String, rx = some s ∧
        (s = "" ∨ ¬ HasScheme (preprocRx s.toList)) := by
  cases rx with
  | none => simp [parseRx]
  | some s =>
    have hs2 : (∃ s2 : String, some s = some s2 ∧
        (s2 = "" ∨ ¬ HasScheme (preprocRx s2.toList))) ↔
        (s = "" ∨ ¬ HasScheme (preprocRx s.toList)) := by
      constructor
      · rintro ⟨s2, hs2, hp⟩
        cases hs2
        exact hp
      · intro hp
        exact ⟨s, rfl, hp⟩
    rw [hs2]
    by_cases hse : s = ""
    · subst hse
      simp [parseRx]
    · have hne : (some s = none) = False := by simp
      simp only [parseRx, hse, hne, false_or, if_false]
      rw [parseRxChars_none_iff, findMatch_none_iff]

/-- C4 witness: applying the backward direction at the empty string gives
`parseRx (some "") = none`. -/
theorem claim_C4_witness : parseRx (some "") = none :=
  (claim_C4 (some "")).mpr (Or.inr ⟨"", rfl, Or.inl rfl⟩)

/-! ## Claim theorems: SessionRotator -/

/-- C1: `determineCurrentSession` returns 0 on a failed lookup, an empty
history, a most recent entry without a sessionId, or a sessionId absent
from the catalogue; when the most recent entry's local calendar date
equals today's it resumes the same catalogue index, and otherwise it
advances to `(index + 1) % catalogue length`, wrapping at the end. -/
theorem claim_C1 (catalog : List Session) (now : DateTime) :
    (∀ u : Unit, determineCurrentSession catalog now (.error u) = 0) ∧
    determineCurrentSession catalog now (.ok none) = 0 ∧
    (∀ e : EntryDoc, e.session = none →
      determineCurrentSession catalog now (.ok (some e)) = 0) ∧
    (∀ (e : EntryDoc) (sid : String), e.session = some sid →
      catalog.findIdx? (fun s => s.id = sid) = none →
      determineCurrentSession catalog now (.ok (some e)) = 0) ∧
    (∀ (e : EntryDoc) (sid : String) (i : Nat) (d : DateTime),
      e.session = some sid → sid ≠ "" →
      catalog.findIdx? (fun s => s.id = sid) = some i →
      e.date = some d → sameDay d.date now.date = true →
      determineCurrentSession catalog now (.ok (some e)) = i) ∧
    (∀ (e : EntryDoc) (sid : String) (i : Nat) (d : DateTime),
      e.session = some sid → sid ≠ "" →
      catalog.findIdx? (fun s => s.id = sid) = some i →
      e.date = some d → sameDay d.date now.date = false →
      determineCurrentSession catalog now (.ok (some e)) =
        (i + 1) % catalog.length) := by
  refine ⟨fun u => rfl, rfl, ?_, ?_, ?_, ?_⟩
  · intro e hs
    simp [determineCurrentSession, hs]
  · intro e sid hs hi
    by_cases hsid : sid = "" <;>
      simp [determineCurrentSession, hs, hi, hsid]
  · intro e sid i d hs hsid hi hd hday
    simp [determineCurrentSession, hs, hsid, hi, hd, hday]
  · intro e sid i d hs hsid hi hd hday
    simp [determineCurrentSession, hs, hsid, hi, hd, hday]

/-- C1 witness: with a three-session catalogue and a most recent entry for
the last session dated yesterday, the advance case of `claim_C1` wraps
back to index 0. -/
theorem claim_C1_witness :
    determineCurrentSession
      [⟨"s1", "A", []⟩, ⟨"s2", "B", []⟩, ⟨"s3", "C", []⟩]
      ⟨⟨2026, 9, 12⟩, 0⟩
      (.ok (some ⟨"squat", some ⟨⟨2026, 9, 11⟩, 32400000⟩, [], "",
        some "s3"⟩)) = 0 := by
  have h := (claim_C1
      [⟨"s1", "A", []⟩, ⟨"s2", "B", []⟩, ⟨"s3", "C", []⟩]
      ⟨⟨2026, 9, 12⟩, 0⟩).2.2.2.2.2
    ⟨"squat", some ⟨⟨2026, 9, 11⟩, 32400000⟩, [], "", some "s3"⟩
    "s3" 2 ⟨⟨2026, 9, 11⟩, 32400000⟩ rfl (by decide) (by decide) rfl
    (by decide)
  simpa using h

/-- C9: implicit behaviour — a most recent entry carrying a sessionId but
no date at all has the current moment substituted for the missing date, so
it counts as dated today and its session index is resumed, not
advanced. -/
theorem claim_C9 (catalog : List Session) (now : DateTime) (e : EntryDoc)
    (sid : String) (i : Nat)
    (hs : e.session = some sid) (hne : sid ≠ "") (hd : e.date = none)
    (hi : catalog.findIdx? (fun s => s.id = sid) = some i) :
    determineCurrentSession catalog now (.ok (some e)) = i := by
  simp [determineCurrentSession, hs, hne, hd, hi, sameDay]

/-- C9 witness: an entry with `date` missing and sessionId `"s2"` resumes
index 1. -/
theorem claim_C9_witness :
    determineCurrentSession
      [⟨"s1", "A", []⟩, ⟨"s2", "B", []⟩, ⟨"s3", "C", []⟩]
      ⟨⟨2026, 9, 12⟩, 0⟩
      (.ok (some ⟨"bench", none, [], "", some "s2"⟩)) = 1 :=
  claim_C9 [⟨"s1", "A", []⟩, ⟨"s2", "B", []⟩, ⟨"s3", "C", []⟩]
    ⟨⟨2026, 9, 12⟩, 0⟩ ⟨"bench", none, [], "", some "s2"⟩ "s2" 1
    rfl (by decide) rfl (by decide)

/-! ## Claim theorems: CompletionTracker -/

theorem dateGe_match_iff (e : EntryDoc) (b : DateTime) :
    (match e.date with
      | some d => dtLe b d
      | none => false) = true ↔
      ∃ d, e.date = some d ∧ dtLe b d = true := by
  cases hd : e.date <;> simp [hd]

/-- C6: the completion set for today contains an exerciseId iff some entry
with that exerciseId has a timestamp at or after today's local midnight;
entries dated on earlier days contribute nothing; concretely one squat
entry at today noon plus an unrelated entry dated yesterday yields exactly
{"squat"}. -/
theorem claim_C6 :
    (∀ (entries : List EntryDoc) (now : DateTime) (x : String),
      x ∈ loadTodayEntries entries now true ↔
        ∃ e ∈ entries, e.lift = x ∧
          ∃ d, e.date = some d ∧ dtLe ⟨now.date, 0⟩ d = true) ∧
    loadTodayEntries
      [⟨"squat", some ⟨⟨2026, 9, 12⟩, 43200000⟩, [], "", none⟩,
       ⟨"other", some ⟨⟨2026, 9, 11⟩, 43200000⟩, [], "", none⟩]
      ⟨⟨2026, 9, 12⟩, 43200000⟩ true = ["squat"] := by
  refine ⟨?_, by decide⟩
  intro entries now x
  simp only [loadTodayEntries, eq_self_iff_true, if_true, queryDateGe,
    List.mem_map, List.mem_filter]
  constructor
  · rintro ⟨e, ⟨he, hp⟩, rfl⟩
    exact ⟨e, he, rfl, (dateGe_match_iff e _).mp hp⟩
  · rintro ⟨e, he, rfl, d, hd, hle⟩
    exact ⟨e, ⟨he, (dateGe_match_iff e _).mpr ⟨d, hd, hle⟩⟩, rfl⟩

/-- C6 witness: the forward direction at the concrete single-entry list
confirms "squat" is completed. -/
theorem claim_C6_witness :
    "squat" ∈ loadTodayEntries
      [⟨"squat", some ⟨⟨2026, 9, 12⟩, 43200000⟩, [], "", none⟩]
      ⟨⟨2026, 9, 12⟩, 50000000⟩ true :=
  (claim_C6.1 _ _ _).mpr
    ⟨⟨"squat", some ⟨⟨2026, 9, 12⟩, 43200000⟩, [], "", none⟩, by simp,
      rfl, ⟨⟨2026, 9, 12⟩, 43200000⟩, rfl, by decide⟩

/-! ## Claim theorems: EntryStore update (edit path) -/

/-- C5: the edit path's store update writes only the `sets` and `notes`
fields of the entry with the edited id: its key, `lift`, `date` and
`session` fields are unchanged, and every other entry is untouched. -/
theorem claim_C5 (store : List (String × EntryDoc)) (id : String)
    (groups : List SetGroup) (notes : String) :
    List.Forall₂ (fun q p =>
        p.1 = q.1 ∧ p.2.lift = q.2.lift ∧ p.2.date = q.2.date ∧
        p.2.session = q.2.session ∧
        (q.1 = id → p.2.sets = groups ∧ p.2.notes = notes) ∧
        (q.1 ≠ id → p = q))
      store (applyUpdate store id groups notes) := by
  induction store with
  | nil => simp [applyUpdate]
  | cons q store ih =>
    simp only [applyUpdate, List.map_cons]
    refine List.Forall₂.cons ?_ (by simpa [applyUpdate] using ih)
    by_cases hq : q.1 = id
    · simp [hq]
    · simp [hq]

/-- C5 witness: updating the single stored entry rewrites sets/notes and
keeps id, lift, date and session. -/
theorem claim_C5_witness :
    ∃ p, applyUpdate
        [("e1", ⟨"squat", some ⟨⟨2026, 9, 10⟩, 0⟩, [⟨3, 5, 100⟩], "old",
          some "s1"⟩)]
        "e1" [⟨5, 5, 105⟩] "new" = [p] ∧
      p.1 = "e1" ∧ p.2.lift = "squat" ∧
      p.2.date = some ⟨⟨2026, 9, 10⟩, 0⟩ ∧ p.2.session = some "s1" ∧
      p.2.sets = [⟨5, 5, 105⟩] ∧ p.2.notes = "new" := by
  have h := claim_C5
    [("e1", ⟨"squat", some ⟨⟨2026, 9, 10⟩, 0⟩, [⟨3, 5, 100⟩], "old",
      some "s1"⟩)]
    "e1" [⟨5, 5, 105⟩] "new"
  have he : applyUpdate
      [("e1", ⟨"squat", some ⟨⟨2026, 9, 10⟩, 0⟩, [⟨3, 5, 100⟩], "old",
        some "s1"⟩)]
      "e1" [⟨5, 5, 105⟩] "new" =
      [("e1", ⟨"squat", some ⟨⟨2026, 9, 10⟩, 0⟩, [⟨5, 5, 105⟩], "new",
        some "s1"⟩)] := by
    simp [applyUpdate]
  rw [he] at h
  obtain ⟨hR, -⟩ := List.forall₂_cons.mp h
  exact ⟨_, he, hR.1, hR.2.1, hR.2.2.1, hR.2.2.2.1,
    (hR.2.2.2.2.1 rfl).1, (hR.2.2.2.2.1 rfl).2⟩

/-! ## Claim theorems: HistoryAutofillEngine -/

/-- C7: with a non-empty history whose entries all carry at least one
SetGroup, the weight auto-fill writes the weight of the first SetGroup of
the most recent entry into the first row's weight field, and only when
that field is blank; a user-entered value is never overwritten; an empty
history leaves the row untouched. -/
theorem claim_C7 :
    (∀ (d : EntryDoc) (rest : List EntryDoc) (g : SetGroup)
        (gs : List SetGroup) (row : FormGroup),
      d.sets = g :: gs → row.weight = none →
      loadHistoryFill (.ok (d :: rest)) row =
        { row with weight := some g.weight }) ∧
    (∀ (docs : List EntryDoc) (row : FormGroup) (w : Rat),
      row.weight = some w → loadHistoryFill (.ok docs) row = row) ∧
    (∀ row : FormGroup, loadHistoryFill (.ok []) row = row) := by
  refine ⟨?_, ?_, fun row => rfl⟩
  · intro d rest g gs row hsets hrow
    simp [loadHistoryFill, List.findSome?_cons, hsets, hrow]
  · intro docs row w hrow
    cases docs with
    | nil => rfl
    | cons d rest =>
      simp only [loadHistoryFill]
      cases hfs : List.findSome?
          (fun d => Option.map (fun g => g.weight) d.sets.head?) (d :: rest) with
      | none => simp [hfs]
      | some w2 => simp [hfs, hrow]

/-- C7 witness: the blank-field fill case of `claim_C7` at a one-entry
history writes 102.5 into the blank weight field. -/
theorem claim_C7_witness :
    loadHistoryFill
      (.ok [⟨"squat", none, [⟨3, 5, ((205 : Rat) / 2)⟩], "", none⟩])
      ⟨some 3, some 5, none⟩ =
      ⟨some 3, some 5, some ((205 : Rat) / 2)⟩ := by
  have h := claim_C7.1 ⟨"squat", none, [⟨3, 5, ((205 : Rat) / 2)⟩], "", none⟩
    [] ⟨3, 5, ((205 : Rat) / 2)⟩ [] ⟨some 3, some 5, none⟩ rfl rfl
  simpa using h

/-! ## Claim theorems: save path -/

theorem readGroup_fields {fg : FormGroup} {g : SetGroup}
    (h : readGroup fg = some g) : g.sets ≠ 0 ∧ g.reps ≠ 0 := by
  obtain ⟨s, r, w⟩ := fg
  cases s with
  | none => simp [readGroup] at h
  | some s =>
    cases r with
    | none => simp [readGroup] at h
    | some r =>
      cases w with
      | none => simp [readGroup] at h
      | some w =>
        simp only [readGroup] at h
        by_cases hc : s ≠ 0 ∧ r ≠ 0
        · rw [if_pos hc] at h
          cases h
          exact hc
        · rw [if_neg hc] at h
          cases h

theorem validateForm_sound {rows : List FormGroup} {groups : List SetGroup}
    (h : validateForm rows = some groups) :
    groups ≠ [] ∧ ∀ g ∈ groups, g.sets ≠ 0 ∧ g.reps ≠ 0 := by
  simp only [validateForm] at h
  split at h
  case isTrue hc =>
    cases h
    obtain ⟨hall, hne⟩ := hc
    constructor
    · cases rows with
      | nil => exact absurd rfl hne
      | cons r rs =>
        have hr : (readGroup r).isSome = true := by
          have := List.all_eq_true.mp hall r (by simp)
          simpa using this
        obtain ⟨g, hg⟩ := Option.isSome_iff_exists.mp hr
        simp [List.filterMap_cons, hg]
    · intro g hg
      obtain ⟨fg, -, hfg⟩ := List.mem_filterMap.mp hg
      exact readGroup_fields hfg
  case isFalse => cases h

/-- C8 counterexample: the validation check `!sets || !reps ||
isNaN(weight)` rejects only zero and non-numeric fields, so a row with
sets = -1 passes and the save path writes an entry whose SetGroup
violates sets ≥ 1: the claim is false at this input. -/
theorem claim_C8_counterexample :
    saveHandler true (some "squat") none
        [⟨some (-1), some 5, some 10⟩] "" false "" none =
      .createEntry ⟨"squat", none, [⟨-1, 5, 10⟩], "", none⟩ ∧
    ((-1 : Int) < 1) := by
  constructor
  · rfl
  · decide

/-- C8 amended: every entry accepted by the save path has at least one
SetGroup and every SetGroup has nonzero sets, nonzero reps and a numeric
weight; a form failing that validation (while signed in with an exercise
selected) is rejected with a user-visible message and no write; negative
values, however, pass validation, so sets ≥ 1, reps ≥ 1, weight ≥ 0 is
not guaranteed. -/
theorem claim_C8_amended :
    (∀ (signedIn : Bool) (lift editing : Option String)
        (rows : List FormGroup) (notes : String) (useS : Bool)
        (sid : String) (sd : Option DateTime) (e : EntryDoc),
      saveHandler signedIn lift editing rows notes useS sid sd =
        .createEntry e →
      e.sets ≠ [] ∧ ∀ g ∈ e.sets, g.sets ≠ 0 ∧ g.reps ≠ 0) ∧
    (∀ (signedIn : Bool) (lift editing : Option String)
        (rows : List FormGroup) (notes : String) (useS : Bool)
        (sid : String) (sd : Option DateTime) (id2 : String)
        (groups : List SetGroup) (notes2 : String),
      saveHandler signedIn lift editing rows notes useS sid sd =
        .updateEntry id2 groups notes2 →
      groups ≠ [] ∧ ∀ g ∈ groups, g.sets ≠ 0 ∧ g.reps ≠ 0) ∧
    (∀ (signedIn : Bool) (lift editing : Option String)
        (rows : List FormGroup) (notes : String) (useS : Bool)
        (sid : String) (sd : Option DateTime),
      signedIn = true → lift.getD "" ≠ "" → validateForm rows = none →
      saveHandler signedIn lift editing rows notes useS sid sd =
        .rejected) := by
  refine ⟨?_, ?_, ?_⟩
  · intro signedIn lift editing rows notes useS sid sd e h
    simp only [saveHandler] at h
    split at h
    · cases h
    · cases hv : validateForm rows with
      | none =>
        simp only [hv] at h
        exact absurd h (by simp)
      | some groups =>
        simp only [hv] at h
        by_cases he : editing.getD "" ≠ ""
        · rw [if_pos he] at h
          exact absurd h (by simp)
        · rw [if_neg he] at h
          cases h
          exact validateForm_sound hv
  · intro signedIn lift editing rows notes useS sid sd id2 groups notes2 h
    simp only [saveHandler] at h
    split at h
    · cases h
    · cases hv : validateForm rows with
      | none =>
        simp only [hv] at h
        exact absurd h (by simp)
      | some groups2 =>
        simp only [hv] at h
        by_cases he : editing.getD "" ≠ ""
        · rw [if_pos he] at h
          cases h
          exact validateForm_sound hv
        · rw [if_neg he] at h
          exact absurd h (by simp)
  · intro signedIn lift editing rows notes useS sid sd hsi hl hv
    simp only [saveHandler]
    rw [if_neg (by
      rintro (h | h)
      · rw [hsi] at h; cases h
      · exact hl h)]
    rw [hv]

/-- C8 amended witness: a signed-in save with an empty form is rejected
with the alert and no write. -/
theorem claim_C8_witness :
    saveHandler true (some "squat") none [] "" false "" none =
      .rejected :=
  claim_C8_amended.2.2 true (some "squat") none [] "" false "" none
    rfl (by decide) (by decide)

/-- C10: implicit behaviour — a save attempt while signed out or with no
exercise selected is a complete no-op: the handler returns before
validation, so no write is attempted and no message is shown. -/
theorem claim_C10 (signedIn : Bool) (lift editing : Option String)
    (rows : List FormGroup) (notes : String) (useS : Bool) (sid : String)
    (sd : Option DateTime)
    (h : signedIn = false ∨ lift = none ∨ lift = some "") :
    saveHandler signedIn lift editing rows notes useS sid sd = .noop := by
  rcases h with h | h | h <;> simp [saveHandler, h]

/-- C10 witness: a signed-out save attempt with a fully valid form is a
no-op. -/
theorem claim_C10_witness :
    saveHandler false (some "squat") none
      [⟨some 3, some 5, some 100⟩] "notes" true "s1" none = .noop :=
  claim_C10 false (some "squat") none [⟨some 3, some 5, some 100⟩]
    "notes" true "s1" none (Or.inl rfl)

end LiftTracker
